import Mathlib

/-!
Verification of the tweet-classification data pipeline and training loop.

This file gives a shallow embedding, in Lean, of the Python code of the
repository (tokenizer, vocabulary builder, encoder, dataset adapter, model
forward pass, training loop, prediction loop) and proves the behavioural
properties stated in the specification.

Modelling conventions:
  - Python strings are `List Char`; Python dicts (which preserve insertion
    order) are association lists `List (Token × Nat)` with first-match lookup;
  - Python floats are exact rationals `ℚ`; the framework primitives (LSTM,
    embedding table, linear layer) are opaque pure functions supplied as
    parameters, since only their compositional structure matters here;
  - fallible Python operations (KeyError, IndexError, ZeroDivisionError)
    return `Option`.
-/

set_option autoImplicit false

namespace Tweet

/-- A token is a normalized word: a list of characters. -/
abbrev Token := List Char

/-- Python `\w` word characters, ASCII fragment: alphanumerics and underscore. -/
def isWordChar (c : Char) : Bool := c.isAlphanum || c == '_'

/-- Helper for the tokenizer: scans the character list, accumulating the
current (reversed) run of word characters in `acc`, and emits a token at
every maximal run boundary.  This models `re.findall(r'\w+', s)`. -/
def tokensAux : List Char → List Char → List Token
  | [], acc => if acc.isEmpty then [] else [acc.reverse]
  | c :: cs, acc =>
    if isWordChar c then tokensAux cs (c :: acc)
    else if acc.isEmpty then tokensAux cs []
    else acc.reverse :: tokensAux cs []

/-- `simple_tokenizer`: lowercase the string, then extract maximal runs of
word characters.  Mirrors `re.findall(r'\w+', text.lower())`. -/
def simple_tokenizer (text : List Char) : List Token :=
  tokensAux (text.map Char.toLower) []

/-- The reserved padding token `<pad>`. -/
def padTok : Token := '<' :: 'p' :: 'a' :: 'd' :: '>' :: []

/-- The reserved unknown token `<unk>`. -/
def unkTok : Token := '<' :: 'u' :: 'n' :: 'k' :: '>' :: []

/-- First-match lookup in an insertion-ordered association list; models
Python `dict` lookup (`d[k]` / `d.get(k)` / `k in d`). -/
def lookup? : List (Token × Nat) → Token → Option Nat
  | [], _ => none
  | (u, n) :: rest, t => if u = t then some n else lookup? rest t

/-- One step of accumulating word counts: models
`word_counts[token] = word_counts.get(token, 0) + 1` on an insertion-ordered
dict, which increments in place if the key is present and appends otherwise. -/
def countsInsert : List (Token × Nat) → Token → List (Token × Nat)
  | [], t => [(t, 1)]
  | (u, n) :: rest, t =>
    if u = t then (u, n + 1) :: rest else (u, n) :: countsInsert rest t

/-- Accumulate the counts of one token sequence into the running dict. -/
def accumCounts (wc : List (Token × Nat)) (tokens : List Token) : List (Token × Nat) :=
  tokens.foldl countsInsert wc

/-- The accumulated word counts over a whole text collection, in
first-encountered order (models the `word_counts` dict of `build_vocab`). -/
def word_counts (texts : List (List Char)) : List (Token × Nat) :=
  texts.foldl (fun wc text => accumCounts wc (simple_tokenizer text)) []

/-- One step of the vocabulary-filling loop of `build_vocab`: models
`if count >= min_freq and token not in vocab: vocab[token] = len(vocab)`. -/
def vocabStep (min_freq : Nat) (v : List (Token × Nat)) (tc : Token × Nat) :
    List (Token × Nat) :=
  if min_freq ≤ tc.2 ∧ lookup? v tc.1 = none then v ++ [(tc.1, v.length)] else v

/-- `build_vocab`: start from the two reserved entries, accumulate word
counts over the collection, then admit each counted token (in
first-encountered order) whose count reaches `min_freq`. -/
def build_vocab (texts : List (List Char)) (min_freq : Nat) : List (Token × Nat) :=
  (word_counts texts).foldl (vocabStep min_freq) [(padTok, 0), (unkTok, 1)]

/-- `text_to_sequence`: map each token of the text to its vocabulary index,
falling back to the index of `<unk>` for out-of-vocabulary tokens.  When the
text has at least one token, Python evaluates `vocab["<unk>"]` for each list
element, so a vocabulary lacking `<unk>` raises `KeyError`: modelled by
`none`. -/
def text_to_sequence (text : List Char) (vocab : List (Token × Nat)) :
    Option (List Nat) :=
  let tokens := simple_tokenizer text
  if tokens.isEmpty then some []
  else
    match lookup? vocab unkTok with
    | none => none
    | some u => some (tokens.map fun t => (lookup? vocab t).getD u)

/-- `pad_sequence`: right-pad with the padding index 0 up to `max_length`,
or truncate to the first `max_length` entries. -/
def pad_sequence (sequence : List Nat) (max_length : Nat) : List Nat :=
  if sequence.length < max_length then
    sequence ++ List.replicate (max_length - sequence.length) 0
  else sequence.take max_length

/-- The full encoder: `text_to_sequence` followed by `pad_sequence`, as in
`TweetDataset.__getitem__`. -/
def encode (text : List Char) (vocab : List (Token × Nat)) (max_len : Nat) :
    Option (List Nat) :=
  (text_to_sequence text vocab).map (fun s => pad_sequence s max_len)

example :
    simple_tokenizer ('H' :: 'e' :: 'l' :: 'l' :: 'o' :: ' ' :: 'W' :: 'o' :: 'r' :: 'l' :: 'd' :: '!' :: []) =
      [('h' :: 'e' :: 'l' :: 'l' :: 'o' :: []), ('w' :: 'o' :: 'r' :: 'l' :: 'd' :: [])] := by
  decide

/-- The padded or truncated sequence always has length exactly `max_length`. -/
theorem pad_sequence_length (s : List Nat) (n : Nat) : (pad_sequence s n).length = n := by
  simp only [pad_sequence]
  by_cases h : s.length < n <;> simp [h] <;> omega

/-- When the vocabulary contains the unknown token, `text_to_sequence`
succeeds and maps each token to its index, defaulting to the unknown index. -/
theorem text_to_sequence_eq (text : List Char) (vocab : List (Token × Nat)) (u : Nat)
    (hu : lookup? vocab unkTok = some u) :
    text_to_sequence text vocab =
      some ((simple_tokenizer text).map fun t => (lookup? vocab t).getD u) := by
  rcases eq_or_ne (simple_tokenizer text) [] with h | h
  · simp [text_to_sequence, h]
  · have h2 : (simple_tokenizer text).isEmpty = false := by simp [h]
    simp [text_to_sequence, h2, hu]

/-- The example vocabulary of the specification. -/
def exVocab : List (Token × Nat) :=
  [(padTok, 0), (unkTok, 1), (('h' :: 'e' :: 'l' :: 'l' :: 'o' :: []), 2),
   (('w' :: 'o' :: 'r' :: 'l' :: 'd' :: []), 3)]

/-- The example input text of the specification. -/
def helloBobWorld : List Char :=
  'H' :: 'e' :: 'l' :: 'l' :: 'o' :: ' ' :: 'B' :: 'o' :: 'b' :: ' ' ::
    'W' :: 'o' :: 'r' :: 'l' :: 'd' :: []

/-- C1: for every text, every vocabulary mapping the unknown token to index 1,
and any `max_len`, the encoder tokenizes the text, maps each token to its
vocabulary index substituting the unknown index 1 for absent tokens, then
truncates or right-pads with 0 so the result has length exactly `max_len`;
in particular encoding "Hello Bob World" with the example vocabulary yields
`[2, 1, 3, 0, 0]` for `max_len = 5` and `[2, 1]` for `max_len = 2`. -/
theorem encoder_spec (text : List Char) (vocab : List (Token × Nat)) (max_len : Nat)
    (hu : lookup? vocab unkTok = some 1) :
    (encode text vocab max_len =
        some (pad_sequence
          ((simple_tokenizer text).map fun t => (lookup? vocab t).getD 1) max_len) ∧
      ∀ s, encode text vocab max_len = some s → s.length = max_len) ∧
    encode helloBobWorld exVocab 5 = some [2, 1, 3, 0, 0] ∧
    encode helloBobWorld exVocab 2 = some [2, 1] := by
  refine ⟨⟨?_, ?_⟩, by decide, by decide⟩
  · simp [encode, text_to_sequence_eq text vocab 1 hu]
  · intro s hs
    rw [encode, text_to_sequence_eq text vocab 1 hu, Option.map_some'] at hs
    simp only [Option.some.injEq] at hs
    subst hs
    exact pad_sequence_length _ _

/-- Witness for C1 at the specification's concrete example. -/
theorem encoder_spec_witness :
    lookup? exVocab unkTok = some 1 ∧
    encode helloBobWorld exVocab 5 = some [2, 1, 3, 0, 0] ∧
    encode helloBobWorld exVocab 2 = some [2, 1] :=
  ⟨by decide, (encoder_spec helloBobWorld exVocab 5 (by decide)).2.1,
   (encoder_spec helloBobWorld exVocab 2 (by decide)).2.2⟩

@[simp] theorem lookup?_nil (t : Token) : lookup? [] t = none := rfl

@[simp] theorem lookup?_cons (u : Token) (n : Nat) (rest : List (Token × Nat)) (t : Token) :
    lookup? ((u, n) :: rest) t = if u = t then some n else lookup? rest t := rfl

/-- A successful lookup is unchanged by appending entries on the right. -/
theorem lookup?_append_of_some (v r : List (Token × Nat)) (t : Token) (i : Nat)
    (h : lookup? v t = some i) : lookup? (v ++ r) t = some i := by
  induction v with
  | nil => simp at h
  | cons p v ih =>
    obtain ⟨u, n⟩ := p
    rw [List.cons_append]
    by_cases hu : u = t
    · simpa [hu] using h
    · simp only [lookup?_cons, hu, if_false] at h ⊢
      exact ih h

/-- A failed lookup passes through to the appended tail. -/
theorem lookup?_append_of_none (v r : List (Token × Nat)) (t : Token)
    (h : lookup? v t = none) : lookup? (v ++ r) t = lookup? r t := by
  induction v with
  | nil => simp
  | cons p v ih =>
    obtain ⟨u, n⟩ := p
    rw [List.cons_append]
    by_cases hu : u = t
    · simp [hu] at h
    · simp only [lookup?_cons, hu, if_false] at h ⊢
      exact ih h

/-- Lookup fails exactly when the key is absent. -/
theorem lookup?_eq_none_iff (v : List (Token × Nat)) (t : Token) :
    lookup? v t = none ↔ t ∉ v.map Prod.fst := by
  induction v with
  | nil => simp
  | cons p v ih =>
    obtain ⟨u, n⟩ := p
    by_cases hu : u = t
    · subst hu
      simp
    · simp only [lookup?_cons, hu, if_false, List.map_cons, List.mem_cons, not_or, ih]
      constructor
      · intro h
        exact ⟨fun he => hu he.symm, h⟩
      · intro h
        exact h.2

/-- A successful lookup exhibits an entry of the list. -/
theorem lookup?_mem (v : List (Token × Nat)) (t : Token) (i : Nat)
    (h : lookup? v t = some i) : (t, i) ∈ v := by
  induction v with
  | nil => simp at h
  | cons p v ih =>
    obtain ⟨u, n⟩ := p
    by_cases hu : u = t
    · simp only [lookup?_cons, hu, if_true, Option.some.injEq] at h
      subst hu; subst h; exact List.mem_cons_self _ _
    · simp only [lookup?_cons, hu, if_false] at h
      exact List.mem_cons_of_mem _ (ih h)

/-- The value of a successful lookup occurs among the stored indices. -/
theorem lookup?_mem_snd (v : List (Token × Nat)) (t : Token) (i : Nat)
    (h : lookup? v t = some i) : i ∈ v.map Prod.snd :=
  List.mem_map.mpr ⟨(t, i), lookup?_mem v t i h, rfl⟩

/-- The vocabulary-filling fold only ever appends entries. -/
theorem foldl_vocabStep_extends (mf : Nat) (wc : List (Token × Nat)) :
    ∀ v : List (Token × Nat), ∃ r, wc.foldl (vocabStep mf) v = v ++ r := by
  induction wc with
  | nil => intro v; exact ⟨[], by simp⟩
  | cons tc wc ih =>
    intro v
    rw [List.foldl_cons]
    obtain ⟨r, hr⟩ := ih (vocabStep mf v tc)
    rw [hr]
    unfold vocabStep
    by_cases hc : mf ≤ tc.2 ∧ lookup? v tc.1 = none
    · exact ⟨[(tc.1, v.length)] ++ r, by simp [hc]⟩
    · exact ⟨r, by simp [hc]⟩

/-- An index once assigned by the vocabulary fold is never changed. -/
theorem foldl_vocabStep_some (mf : Nat) (wc v : List (Token × Nat)) (t : Token) (i : Nat)
    (h : lookup? v t = some i) : lookup? (wc.foldl (vocabStep mf) v) t = some i := by
  obtain ⟨r, hr⟩ := foldl_vocabStep_extends mf wc v
  rw [hr]
  exact lookup?_append_of_some v r t i h

/-- The fold preserves the invariant that the stored indices are exactly
`0, 1, ..., length - 1` in order. -/
theorem foldl_vocabStep_snd_range (mf : Nat) (wc : List (Token × Nat)) :
    ∀ v : List (Token × Nat), v.map Prod.snd = List.range v.length →
      (wc.foldl (vocabStep mf) v).map Prod.snd =
        List.range (wc.foldl (vocabStep mf) v).length := by
  induction wc with
  | nil => intro v h; simpa using h
  | cons tc wc ih =>
    intro v h
    rw [List.foldl_cons]
    apply ih
    unfold vocabStep
    by_cases hc : mf ≤ tc.2 ∧ lookup? v tc.1 = none
    · rw [if_pos hc, List.map_append, h, List.length_append]
      simp [List.range_succ]
    · rw [if_neg hc]
      exact h

/-- Every vocabulary starts with the two reserved entries. -/
theorem build_vocab_extends (texts : List (List Char)) (mf : Nat) :
    ∃ r, build_vocab texts mf = (padTok, 0) :: (unkTok, 1) :: r := by
  obtain ⟨r, hr⟩ := foldl_vocabStep_extends mf (word_counts texts) [(padTok, 0), (unkTok, 1)]
  exact ⟨r, by simpa using hr⟩

/-- The padding token always maps to index 0. -/
theorem build_vocab_pad (texts : List (List Char)) (mf : Nat) :
    lookup? (build_vocab texts mf) padTok = some 0 := by
  obtain ⟨r, hr⟩ := build_vocab_extends texts mf
  rw [hr]
  simp

/-- The unknown token always maps to index 1. -/
theorem build_vocab_unk (texts : List (List Char)) (mf : Nat) :
    lookup? (build_vocab texts mf) unkTok = some 1 := by
  obtain ⟨r, hr⟩ := build_vocab_extends texts mf
  have hne : padTok ≠ unkTok := by decide
  rw [hr]
  simp [hne]

/-- The indices stored in any built vocabulary are exactly
`0, 1, ..., size - 1`, in order. -/
theorem build_vocab_snd_range (texts : List (List Char)) (mf : Nat) :
    (build_vocab texts mf).map Prod.snd = List.range (build_vocab texts mf).length := by
  apply foldl_vocabStep_snd_range
  decide

/-- An empty collection yields exactly the two reserved entries. -/
theorem build_vocab_nil (mf : Nat) : build_vocab [] mf = [(padTok, 0), (unkTok, 1)] := rfl

/-- Every index stored in a built vocabulary is below its size. -/
theorem build_vocab_lookup_lt (texts : List (List Char)) (mf : Nat) (t : Token) (i : Nat)
    (h : lookup? (build_vocab texts mf) t = some i) : i < (build_vocab texts mf).length := by
  have hm := lookup?_mem_snd _ _ _ h
  rw [build_vocab_snd_range] at hm
  exact List.mem_range.mp hm

/-- C2: every vocabulary returned by `build_vocab` maps `<pad>` to index 0 and
`<unk>` to index 1, stores pairwise-distinct indices forming exactly the
contiguous range `0, ..., size - 1`, and an empty input collection yields a
vocabulary containing only the two reserved entries. -/
theorem build_vocab_reserved_contiguous (texts : List (List Char)) (mf : Nat) :
    lookup? (build_vocab texts mf) padTok = some 0 ∧
    lookup? (build_vocab texts mf) unkTok = some 1 ∧
    (build_vocab texts mf).map Prod.snd = List.range (build_vocab texts mf).length ∧
    build_vocab [] mf = [(padTok, 0), (unkTok, 1)] :=
  ⟨build_vocab_pad texts mf, build_vocab_unk texts mf, build_vocab_snd_range texts mf,
   build_vocab_nil mf⟩

/-- Number of occurrences of a token in a token sequence. -/
def countTok (t : Token) : List Token → Nat
  | [] => 0
  | u :: rest => (if u = t then 1 else 0) + countTok t rest

/-- Total occurrence count of a token across all tokenized texts. -/
def corpusCount (texts : List (List Char)) (t : Token) : Nat :=
  (texts.map fun tx => countTok t (simple_tokenizer tx)).sum

/-- The count recorded for a token in an accumulated-counts dict (0 if absent). -/
def countOfWC (wc : List (Token × Nat)) (t : Token) : Nat := (lookup? wc t).getD 0

/-- Inserting one occurrence bumps exactly the matching token's count. -/
theorem countsInsert_count (wc : List (Token × Nat)) (u t : Token) :
    countOfWC (countsInsert wc u) t = countOfWC wc t + (if u = t then 1 else 0) := by
  induction wc with
  | nil => by_cases h : u = t <;> simp [countsInsert, countOfWC, h]
  | cons p wc ih =>
    obtain ⟨w, n⟩ := p
    simp only [countsInsert]
    by_cases hw : w = u
    · subst hw
      simp only [if_pos rfl]
      by_cases ht : w = t
      · subst ht; simp [countOfWC]
      · simp [countOfWC, ht]
    · simp only [if_neg hw]
      by_cases ht : w = t
      · subst ht
        have hut : ¬u = w := fun h => hw h.symm
        simp [countOfWC, hut]
      · simp only [countOfWC, lookup?_cons, ht, if_false] at *
        exact ih

/-- Accumulating a token sequence adds its occurrence counts. -/
theorem accumCounts_count (toks : List Token) (t : Token) :
    ∀ wc, countOfWC (accumCounts wc toks) t = countOfWC wc t + countTok t toks := by
  induction toks with
  | nil => intro wc; simp [accumCounts, countTok]
  | cons u toks ih =>
    intro wc
    simp only [accumCounts, List.foldl_cons] at *
    rw [ih (countsInsert wc u), countsInsert_count, countTok]
    by_cases h : u = t
    · simp only [h, if_true]
      omega
    · simp only [h, if_false]
      omega

/-- The accumulated counts dict records exactly the corpus counts. -/
theorem word_counts_count (texts : List (List Char)) (t : Token) :
    countOfWC (word_counts texts) t = corpusCount texts t := by
  suffices h : ∀ wc,
      countOfWC (texts.foldl (fun wc tx => accumCounts wc (simple_tokenizer tx)) wc) t =
        countOfWC wc t + corpusCount texts t by
    simpa [word_counts, countOfWC] using h []
  induction texts with
  | nil => intro wc; simp [corpusCount]
  | cons tx texts ih =>
    intro wc
    rw [List.foldl_cons, ih, accumCounts_count]
    simp [corpusCount]
    omega

/-- The keys after an insertion: unchanged if the key was present, else the
key is appended at the end (Python dict insertion order). -/
theorem countsInsert_keys (wc : List (Token × Nat)) (u : Token) :
    (countsInsert wc u).map Prod.fst =
      if (lookup? wc u).isSome then wc.map Prod.fst else wc.map Prod.fst ++ [u] := by
  induction wc with
  | nil => simp [countsInsert]
  | cons p wc ih =>
    obtain ⟨w, n⟩ := p
    by_cases hw : w = u
    · simp [countsInsert, hw]
    · simp only [countsInsert, if_neg hw, List.map_cons, lookup?_cons, hw, if_false, ih]
      by_cases hs : (lookup? wc u).isSome <;> simp [hs]

/-- Insertion preserves distinctness of keys. -/
theorem countsInsert_nodup (wc : List (Token × Nat)) (u : Token)
    (h : (wc.map Prod.fst).Nodup) : ((countsInsert wc u).map Prod.fst).Nodup := by
  rw [countsInsert_keys]
  by_cases hs : (lookup? wc u).isSome
  · simpa [hs] using h
  · have hnone : lookup? wc u = none := by
      cases hl : lookup? wc u
      · rfl
      · simp [hl] at hs
    have hnm : u ∉ wc.map Prod.fst := (lookup?_eq_none_iff wc u).mp hnone
    rw [if_neg hs]
    simp only [List.nodup_append, List.nodup_cons, List.not_mem_nil, not_false_iff,
      List.nodup_nil, and_true, true_and]
    refine ⟨h, ?_⟩
    intro a ha hau
    simp only [List.mem_singleton] at hau
    exact hnm (hau ▸ ha)

/-- Accumulating preserves distinctness of keys. -/
theorem accumCounts_nodup (toks : List Token) :
    ∀ wc, (wc.map Prod.fst).Nodup → ((accumCounts wc toks).map Prod.fst).Nodup := by
  induction toks with
  | nil => intro wc h; simpa [accumCounts] using h
  | cons u toks ih =>
    intro wc h
    simp only [accumCounts, List.foldl_cons]
    exact ih _ (countsInsert_nodup wc u h)

/-- The accumulated-counts dict has pairwise-distinct keys. -/
theorem word_counts_nodup (texts : List (List Char)) :
    ((word_counts texts).map Prod.fst).Nodup := by
  suffices h : ∀ wc, (wc.map Prod.fst).Nodup →
      (((texts.foldl (fun wc tx => accumCounts wc (simple_tokenizer tx)) wc)).map
        Prod.fst).Nodup by
    simpa [word_counts] using h [] (by simp)
  induction texts with
  | nil => intro wc h; simpa using h
  | cons tx texts ih =>
    intro wc h
    rw [List.foldl_cons]
    exact ih _ (accumCounts_nodup _ wc h)

/-- Insertion keeps every stored count at least 1. -/
theorem countsInsert_pos (wc : List (Token × Nat)) (u : Token)
    (h : ∀ p ∈ wc, 1 ≤ p.2) : ∀ p ∈ countsInsert wc u, 1 ≤ p.2 := by
  induction wc with
  | nil =>
    intro p hp
    simp only [countsInsert, List.mem_singleton] at hp
    subst hp
    exact le_refl 1
  | cons q wc ih =>
    obtain ⟨w, n⟩ := q
    intro p hp
    simp only [countsInsert] at hp
    by_cases hw : w = u
    · rw [if_pos hw] at hp
      rcases List.mem_cons.mp hp with rfl | hp2
      · omega
      · exact h p (List.mem_cons_of_mem _ hp2)
    · rw [if_neg hw] at hp
      rcases List.mem_cons.mp hp with rfl | hp2
      · exact h (w, n) (List.mem_cons_self _ _)
      · exact ih (fun q hq => h q (List.mem_cons_of_mem _ hq)) p hp2

/-- Accumulating keeps every stored count at least 1. -/
theorem accumCounts_pos (toks : List Token) :
    ∀ wc, (∀ p ∈ wc, 1 ≤ p.2) → ∀ p ∈ accumCounts wc toks, 1 ≤ p.2 := by
  induction toks with
  | nil => intro wc h; simpa [accumCounts] using h
  | cons u toks ih =>
    intro wc h
    simp only [accumCounts, List.foldl_cons]
    exact ih _ (countsInsert_pos wc u h)

/-- Every count stored in the accumulated counts dict is at least 1. -/
theorem word_counts_pos (texts : List (List Char)) :
    ∀ p ∈ word_counts texts, 1 ≤ p.2 := by
  suffices h : ∀ wc, (∀ p ∈ wc, 1 ≤ p.2) →
      ∀ p ∈ texts.foldl (fun wc tx => accumCounts wc (simple_tokenizer tx)) wc, 1 ≤ p.2 by
    simpa [word_counts] using h [] (by simp)
  induction texts with
  | nil => intro wc h; simpa using h
  | cons tx texts ih =>
    intro wc h
    rw [List.foldl_cons]
    exact ih _ (accumCounts_pos _ wc h)

/-- In a list with distinct keys, membership determines the lookup. -/
theorem lookup?_of_mem_nodup (wc : List (Token × Nat)) (t : Token) (c : Nat)
    (hnd : (wc.map Prod.fst).Nodup) (hm : (t, c) ∈ wc) : lookup? wc t = some c := by
  induction wc with
  | nil => simp at hm
  | cons p wc ih =>
    obtain ⟨w, n⟩ := p
    simp only [List.map_cons, List.nodup_cons] at hnd
    rcases List.mem_cons.mp hm with h | h
    · cases h
      simp
    · have hw : ¬w = t := by
        intro he
        exact hnd.1 (he ▸ List.mem_map.mpr ⟨(t, c), h, rfl⟩)
      simp only [lookup?_cons, hw, if_false]
      exact ih hnd.2 h

/-- Every character of every token produced by the scanner is a word
character (provided the accumulator only holds word characters). -/
theorem tokensAux_wordChars (s : List Char) :
    ∀ acc, (∀ c ∈ acc, isWordChar c = true) →
      ∀ t ∈ tokensAux s acc, ∀ c ∈ t, isWordChar c = true := by
  induction s with
  | nil =>
    intro acc hacc t ht c hc
    simp only [tokensAux] at ht
    by_cases he : acc.isEmpty
    · simp [he] at ht
    · simp [he] at ht
      subst ht
      exact hacc c (by simpa using hc)
  | cons a s ih =>
    intro acc hacc t ht c hc
    simp only [tokensAux] at ht
    by_cases hw : isWordChar a = true
    · rw [if_pos hw] at ht
      refine ih (a :: acc) ?_ t ht c hc
      intro x hx
      rcases List.mem_cons.mp hx with rfl | hx
      · exact hw
      · exact hacc x hx
    · rw [if_neg hw] at ht
      by_cases he : acc.isEmpty
      · rw [if_pos he] at ht
        exact ih [] (by simp) t ht c hc
      · rw [if_neg he] at ht
        rcases List.mem_cons.mp ht with rfl | ht2
        · exact hacc c (by simpa using hc)
        · exact ih [] (by simp) t ht2 c hc

/-- Every character of every token of `simple_tokenizer` is a word character. -/
theorem simple_tokenizer_wordChars (text : List Char) :
    ∀ t ∈ simple_tokenizer text, ∀ c ∈ t, isWordChar c = true :=
  tokensAux_wordChars _ [] (by simp)

/-- The reserved padding token can never be produced by the tokenizer. -/
theorem padTok_notin_tokens (text : List Char) : padTok ∉ simple_tokenizer text := by
  intro h
  exact absurd (simple_tokenizer_wordChars text padTok h '<' (by simp [padTok])) (by decide)

/-- The reserved unknown token can never be produced by the tokenizer. -/
theorem unkTok_notin_tokens (text : List Char) : unkTok ∉ simple_tokenizer text := by
  intro h
  exact absurd (simple_tokenizer_wordChars text unkTok h '<' (by simp [unkTok])) (by decide)

/-- A key of an insertion was already a key or is the inserted token. -/
theorem countsInsert_keys_sub (wc : List (Token × Nat)) (u t : Token)
    (h : t ∈ (countsInsert wc u).map Prod.fst) : t ∈ wc.map Prod.fst ∨ t = u := by
  rw [countsInsert_keys] at h
  by_cases hs : (lookup? wc u).isSome
  · rw [if_pos hs] at h
    exact Or.inl h
  · rw [if_neg hs] at h
    rcases List.mem_append.mp h with h | h
    · exact Or.inl h
    · simp only [List.mem_singleton] at h
      exact Or.inr h

/-- A key after accumulating a token sequence was a key before or occurs in
the sequence. -/
theorem accumCounts_keys_sub (toks : List Token) :
    ∀ wc t, t ∈ (accumCounts wc toks).map Prod.fst → t ∈ wc.map Prod.fst ∨ t ∈ toks := by
  induction toks with
  | nil => intro wc t h; exact Or.inl (by simpa [accumCounts] using h)
  | cons u toks ih =>
    intro wc t h
    simp only [accumCounts, List.foldl_cons] at h
    rcases ih (countsInsert wc u) t h with h1 | h1
    · rcases countsInsert_keys_sub wc u t h1 with h2 | h2
      · exact Or.inl h2
      · exact Or.inr (by simp [h2])
    · exact Or.inr (List.mem_cons_of_mem _ h1)

/-- Every key of the accumulated counts occurs as a token of some text. -/
theorem word_counts_keys_sub (texts : List (List Char)) (t : Token)
    (h : t ∈ (word_counts texts).map Prod.fst) :
    ∃ tx ∈ texts, t ∈ simple_tokenizer tx := by
  suffices haux : ∀ wc, t ∈ ((texts.foldl
        (fun wc tx => accumCounts wc (simple_tokenizer tx)) wc)).map Prod.fst →
      t ∈ wc.map Prod.fst ∨ ∃ tx ∈ texts, t ∈ simple_tokenizer tx by
    rcases haux [] (by simpa [word_counts] using h) with h1 | h1
    · simp at h1
    · exact h1
  clear h
  induction texts with
  | nil => intro wc h; exact Or.inl (by simpa using h)
  | cons tx texts ih =>
    intro wc h
    rw [List.foldl_cons] at h
    rcases ih _ h with h1 | h1
    · rcases accumCounts_keys_sub _ wc t h1 with h2 | h2
      · exact Or.inl h2
      · exact Or.inr ⟨tx, by simp, h2⟩
    · obtain ⟨ty, hty, htt⟩ := h1
      exact Or.inr ⟨ty, List.mem_cons_of_mem _ hty, htt⟩

/-- A token present in the starting vocabulary stays present after the fold. -/
theorem foldl_vocabStep_isSome_mono (mf : Nat) (wc v : List (Token × Nat)) (t : Token)
    (h : (lookup? v t).isSome) : (lookup? (wc.foldl (vocabStep mf) v) t).isSome := by
  obtain ⟨i, hi⟩ := Option.isSome_iff_exists.mp h
  rw [foldl_vocabStep_some mf wc v t i hi]
  rfl

/-- A counted token whose count reaches the threshold is admitted. -/
theorem foldl_vocabStep_admits (mf : Nat) (wc : List (Token × Nat)) (t : Token) (c : Nat) :
    ∀ v, (t, c) ∈ wc → mf ≤ c → (lookup? (wc.foldl (vocabStep mf) v) t).isSome := by
  induction wc with
  | nil => intro v h hc; simp at h
  | cons tc wc ih =>
    intro v hm hc
    rw [List.foldl_cons]
    rcases List.mem_cons.mp hm with h | h
    · subst h
      cases hv : lookup? v t with
      | some i =>
        apply foldl_vocabStep_isSome_mono
        have hs : lookup? (vocabStep mf v (t, c)) t = some i := by
          unfold vocabStep
          by_cases hcnd : mf ≤ (t, c).2 ∧ lookup? v (t, c).1 = none
          · rw [hcnd.2] at hv
            cases hv
          · rw [if_neg hcnd]
            exact hv
        simp [hs]
      | none =>
        apply foldl_vocabStep_isSome_mono
        have hs : lookup? (vocabStep mf v (t, c)) t = some v.length := by
          unfold vocabStep
          rw [if_pos ⟨hc, hv⟩, lookup?_append_of_none v _ t hv]
          simp
        simp [hs]
    · exact ih _ h hc

/-- A token present after the fold was present initially or is a counted
token whose count reaches the threshold. -/
theorem foldl_vocabStep_isSome_src (mf : Nat) (wc : List (Token × Nat)) (t : Token) :
    ∀ v, (lookup? (wc.foldl (vocabStep mf) v) t).isSome →
      (lookup? v t).isSome ∨ ∃ c, (t, c) ∈ wc ∧ mf ≤ c := by
  induction wc with
  | nil => intro v h; exact Or.inl (by simpa using h)
  | cons tc wc ih =>
    intro v h
    rw [List.foldl_cons] at h
    rcases ih _ h with h1 | h1
    · unfold vocabStep at h1
      by_cases hcnd : mf ≤ tc.2 ∧ lookup? v tc.1 = none
      · rw [if_pos hcnd] at h1
        cases hv : lookup? v t with
        | some i => exact Or.inl (by simp [hv])
        | none =>
          rw [lookup?_append_of_none v _ t hv] at h1
          by_cases he : tc.1 = t
          · have heq : (t, tc.2) = tc := by rw [← he]
            exact Or.inr ⟨tc.2, heq ▸ List.mem_cons_self tc wc, hcnd.1⟩
          · simp [he] at h1
      · rw [if_neg hcnd] at h1
        exact Or.inl h1
    · obtain ⟨c, hm, hc⟩ := h1
      exact Or.inr ⟨c, List.mem_cons_of_mem _ hm, hc⟩

/-- When the counted keys are distinct and disjoint from the starting
vocabulary, the fold appends exactly the admitted keys, in order. -/
theorem foldl_vocabStep_keys (mf : Nat) (wc : List (Token × Nat)) :
    ∀ v, (wc.map Prod.fst).Nodup →
      (∀ t ∈ wc.map Prod.fst, lookup? v t = none) →
      (wc.foldl (vocabStep mf) v).map Prod.fst =
        v.map Prod.fst ++ wc.filterMap (fun tc => if mf ≤ tc.2 then some tc.1 else none) := by
  induction wc with
  | nil => intro v _ _; simp
  | cons tc wc ih =>
    intro v hnd hdisj
    rw [List.foldl_cons]
    have hvt : lookup? v tc.1 = none := hdisj tc.1 (by simp)
    simp only [List.map_cons, List.nodup_cons] at hnd
    by_cases hc : mf ≤ tc.2
    · have hstep : vocabStep mf v tc = v ++ [(tc.1, v.length)] := by
        unfold vocabStep
        rw [if_pos ⟨hc, hvt⟩]
      rw [hstep, ih _ hnd.2 ?_]
      · simp [hc]
      · intro u hu
        rw [lookup?_append_of_none v _ u (hdisj u (by simp [hu]))]
        have hne : ¬tc.1 = u := fun he => hnd.1 (he ▸ hu)
        simp [hne]
    · have hstep : vocabStep mf v tc = v := by
        unfold vocabStep
        rw [if_neg]
        intro hcc
        exact hc hcc.1
      rw [hstep, ih _ hnd.2 ?_]
      · simp [hc]
      · intro u hu
        exact hdisj u (by simp [hu])

/-- C3 counterexample: with threshold `min_freq = 0`, the token "bob" has
total occurrence count `0 ≥ min_freq` in the empty collection and yet is not
present in the vocabulary, so presence is not equivalent to
`count ≥ min_freq` alone. -/
theorem build_vocab_min_freq_counterexample :
    ¬((lookup? (build_vocab ([] : List (List Char)) 0) ('b' :: 'o' :: 'b' :: [])).isSome ↔
      0 ≤ corpusCount [] ('b' :: 'o' :: 'b' :: [])) := by
  decide

/-- C3 (amended): a non-reserved token is present in the vocabulary returned
by `build_vocab` if and only if its total occurrence count across all
tokenized texts is at least `min_freq` and at least 1 (the second condition
is redundant whenever `min_freq ≥ 1`, the intended regime); moreover the
keys of the vocabulary are the two reserved tokens followed by exactly the
admitted tokens in first-encountered order of the single deterministic pass
over the accumulated counts, so the index assignment is reproducible. -/
theorem build_vocab_min_freq_membership (texts : List (List Char)) (mf : Nat) (t : Token)
    (h1 : t ≠ padTok) (h2 : t ≠ unkTok) :
    ((lookup? (build_vocab texts mf) t).isSome ↔
      mf ≤ corpusCount texts t ∧ 1 ≤ corpusCount texts t) ∧
    (build_vocab texts mf).map Prod.fst =
      padTok :: unkTok ::
        (word_counts texts).filterMap (fun tc => if mf ≤ tc.2 then some tc.1 else none) := by
  constructor
  · constructor
    · intro h
      rw [build_vocab] at h
      rcases foldl_vocabStep_isSome_src mf (word_counts texts) t _ h with h3 | h3
      · have hp : ¬padTok = t := fun he => h1 he.symm
        have hq : ¬unkTok = t := fun he => h2 he.symm
        simp [hp, hq] at h3
      · obtain ⟨c, hm, hc⟩ := h3
        have hl := lookup?_of_mem_nodup _ _ _ (word_counts_nodup texts) hm
        have hcc := word_counts_count texts t
        rw [countOfWC, hl] at hcc
        simp at hcc
        have hone := word_counts_pos texts (t, c) hm
        simp at hone
        constructor <;> omega
    · intro h
      have hcc := word_counts_count texts t
      have hpos : 1 ≤ corpusCount texts t := h.2
      cases hl : lookup? (word_counts texts) t with
      | none =>
        rw [countOfWC, hl] at hcc
        simp at hcc
        omega
      | some c =>
        rw [countOfWC, hl] at hcc
        simp at hcc
        subst hcc
        rw [build_vocab]
        exact foldl_vocabStep_admits mf (word_counts texts) t _ _
          (lookup?_mem _ _ _ hl) h.1
  · rw [build_vocab, foldl_vocabStep_keys mf (word_counts texts) _ (word_counts_nodup texts) ?_]
    · simp
    · intro u hu
      obtain ⟨tx, _, htk⟩ := word_counts_keys_sub texts u hu
      have hp : ¬padTok = u := fun he => padTok_notin_tokens tx (he ▸ htk)
      have hq : ¬unkTok = u := fun he => unkTok_notin_tokens tx (he ▸ htk)
      simp [hp, hq]

/-- A concrete corpus text "ai is ai" used by the witnesses. -/
def aiText : List Char := 'a' :: 'i' :: ' ' :: 'i' :: 's' :: ' ' :: 'a' :: 'i' :: []

/-- Witness for C3 on the corpus ["ai is ai"] with threshold 2 and token "ai". -/
theorem build_vocab_min_freq_membership_witness :
    (lookup? (build_vocab [aiText] 2) ('a' :: 'i' :: [])).isSome ↔
      2 ≤ corpusCount [aiText] ('a' :: 'i' :: []) ∧
        1 ≤ corpusCount [aiText] ('a' :: 'i' :: []) :=
  (build_vocab_min_freq_membership [aiText] 2 ('a' :: 'i' :: [])
    (by decide) (by decide)).1

/-- C10: raising the threshold only shrinks the vocabulary: every token of
`build_vocab texts mf2` is a token of `build_vocab texts mf` when
`mf ≤ mf2`, and the two reserved tokens belong to both. -/
theorem build_vocab_antitone (texts : List (List Char)) (mf mf2 : Nat) (hm : mf ≤ mf2)
    (t : Token) :
    ((lookup? (build_vocab texts mf2) t).isSome →
      (lookup? (build_vocab texts mf) t).isSome) ∧
    (lookup? (build_vocab texts mf2) padTok).isSome ∧
    (lookup? (build_vocab texts mf) padTok).isSome ∧
    (lookup? (build_vocab texts mf2) unkTok).isSome ∧
    (lookup? (build_vocab texts mf) unkTok).isSome := by
  refine ⟨?_, by rw [build_vocab_pad]; rfl, by rw [build_vocab_pad]; rfl,
    by rw [build_vocab_unk]; rfl, by rw [build_vocab_unk]; rfl⟩
  intro h
  rw [build_vocab] at h ⊢
  rcases foldl_vocabStep_isSome_src mf2 (word_counts texts) t _ h with h1 | h1
  · exact foldl_vocabStep_isSome_mono mf _ _ t h1
  · obtain ⟨c, hmem, hc⟩ := h1
    exact foldl_vocabStep_admits mf _ t c _ hmem (le_trans hm hc)

/-- Witness for C10 on the corpus ["ai is ai"] with thresholds 1 ≤ 2. -/
theorem build_vocab_antitone_witness :
    (lookup? (build_vocab [aiText] 1) padTok).isSome :=
  (build_vocab_antitone [aiText] 1 2 (by decide) padTok).2.2.1

/-- Python positional indexing on a list or Series: a negative index counts
from the end (wrap-around); an index outside `[-len, len)` raises
`IndexError`, modelled by `none`. -/
def pyGet? {α : Type} (l : List α) (idx : Int) : Option α :=
  let j := if idx < 0 then idx + l.length else idx
  if 0 ≤ j ∧ j < (l.length : Int) then l.get? j.toNat else none

/-- The dataset adapter: parallel texts and labels plus the frozen
vocabulary and the fixed sequence length. -/
structure TweetDataset where
  texts : List (List Char)
  labels : List Int
  vocab : List (Token × Nat)
  max_len : Nat

/-- `TweetDataset.__len__`: the length of the texts collection. -/
def TweetDataset.len (d : TweetDataset) : Nat := d.texts.length

/-- `TweetDataset.__getitem__`: fetch the text and label at the index
(Python semantics), encode and pad the text, return it with the label. -/
def TweetDataset.getitem (d : TweetDataset) (idx : Int) : Option (List Nat × Int) :=
  match pyGet? d.texts idx, pyGet? d.labels idx with
  | some text, some label => (encode text d.vocab d.max_len).map fun s => (s, label)
  | _, _ => none

/-- Indexing with `0 ≤ idx < len` is plain positional access. -/
theorem pyGet?_nonneg {α : Type} (l : List α) (idx : Int) (h0 : 0 ≤ idx)
    (hlt : idx < (l.length : Int)) : pyGet? l idx = l.get? idx.toNat := by
  simp only [pyGet?]
  rw [if_neg (show ¬idx < 0 by omega), if_pos ⟨h0, hlt⟩]

/-- Indexing at or beyond the length fails. -/
theorem pyGet?_ge {α : Type} (l : List α) (idx : Int) (h : (l.length : Int) ≤ idx) :
    pyGet? l idx = none := by
  simp only [pyGet?]
  rw [if_neg (show ¬idx < 0 by omega), if_neg (by omega)]

/-- Indexing below `-len` fails. -/
theorem pyGet?_lt_neg {α : Type} (l : List α) (idx : Int) (h : idx < -(l.length : Int)) :
    pyGet? l idx = none := by
  simp only [pyGet?]
  rw [if_pos (show idx < 0 by omega), if_neg (by omega)]

/-- Every element of the padded sequence is an element of the unpadded
sequence or the padding index 0. -/
theorem pad_sequence_mem (s : List Nat) (n : Nat) (i : Nat) (h : i ∈ pad_sequence s n) :
    i ∈ s ∨ i = 0 := by
  unfold pad_sequence at h
  by_cases hc : s.length < n
  · rw [if_pos hc] at h
    rcases List.mem_append.mp h with h | h
    · exact Or.inl h
    · exact Or.inr (List.eq_of_mem_replicate h)
  · rw [if_neg hc] at h
    exact Or.inl (List.mem_of_mem_take h)

/-- A concrete dataset used as the C7 counterexample: one text "hi", one
label 5, a vocabulary with only the reserved entries, `max_len` 2. -/
def exDataset : TweetDataset :=
  ⟨[('h' :: 'i' :: [])], [5], [(padTok, 0), (unkTok, 1)], 2⟩

/-- C7 counterexample: the index −1 lies outside `[0, size)` yet retrieval
succeeds via Python's negative-index wrap-around, so retrieval outside
`[0, size)` does not always fail as the claim states. -/
theorem tweetDataset_negative_index_counterexample :
    ((-1 : Int) < 0 ∨ (exDataset.len : Int) ≤ (-1 : Int)) ∧
    exDataset.getitem (-1) = some ([1, 0], 5) := by
  constructor
  · left
    decide
  · decide

/-- C7 (amended): for a dataset wrapping equal-length texts and labels whose
vocabulary contains the unknown token, the size query returns the length of
the texts collection, retrieval succeeds for every index in `[0, size)`
returning an encoded sequence of length exactly `max_len` together with the
unchanged label, and retrieval at any index `≥ size` or `< -size` fails with
an out-of-range error; indices in `[-size, 0)` follow Python's wrap-around
semantics rather than failing. -/
theorem tweetDataset_getitem_spec (texts : List (List Char)) (labels : List Int)
    (vocab : List (Token × Nat)) (max_len : Nat) (u : Nat)
    (hlen : texts.length = labels.length)
    (hu : lookup? vocab unkTok = some u) :
    TweetDataset.len ⟨texts, labels, vocab, max_len⟩ = texts.length ∧
    (∀ idx : Int, 0 ≤ idx → idx < (texts.length : Int) →
      ∃ s l, TweetDataset.getitem ⟨texts, labels, vocab, max_len⟩ idx = some (s, l) ∧
        s.length = max_len ∧ labels.get? idx.toNat = some l) ∧
    (∀ idx : Int, (texts.length : Int) ≤ idx →
      TweetDataset.getitem ⟨texts, labels, vocab, max_len⟩ idx = none) ∧
    (∀ idx : Int, idx < -(texts.length : Int) →
      TweetDataset.getitem ⟨texts, labels, vocab, max_len⟩ idx = none) := by
  refine ⟨rfl, ?_, ?_, ?_⟩
  · intro idx h0 hlt
    have htex : idx.toNat < texts.length := by omega
    have hlab : idx.toNat < labels.length := by omega
    obtain ⟨text, htext⟩ : ∃ x, texts.get? idx.toNat = some x :=
      ⟨_, List.get?_eq_get htex⟩
    obtain ⟨lab, hlabg⟩ : ∃ x, labels.get? idx.toNat = some x :=
      ⟨_, List.get?_eq_get hlab⟩
    refine ⟨pad_sequence ((simple_tokenizer text).map fun tk => (lookup? vocab tk).getD u)
      max_len, lab, ?_, pad_sequence_length _ _, hlabg⟩
    unfold TweetDataset.getitem
    rw [show (⟨texts, labels, vocab, max_len⟩ : TweetDataset).texts = texts from rfl,
      show (⟨texts, labels, vocab, max_len⟩ : TweetDataset).labels = labels from rfl,
      pyGet?_nonneg texts idx h0 hlt, pyGet?_nonneg labels idx h0 (by omega),
      htext, hlabg]
    simp [encode, text_to_sequence_eq text vocab u hu]
  · intro idx hge
    unfold TweetDataset.getitem
    rw [show (⟨texts, labels, vocab, max_len⟩ : TweetDataset).texts = texts from rfl,
      pyGet?_ge texts idx hge]
  · intro idx hneg
    unfold TweetDataset.getitem
    rw [show (⟨texts, labels, vocab, max_len⟩ : TweetDataset).texts = texts from rfl,
      pyGet?_lt_neg texts idx hneg]

/-- Witness for the amended C7 on the concrete example dataset. -/
theorem tweetDataset_getitem_spec_witness :
    ∃ s l, TweetDataset.getitem ⟨[('h' :: 'i' :: [])], [5], [(padTok, 0), (unkTok, 1)], 2⟩
        0 = some (s, l) ∧ s.length = 2 ∧ [(5 : Int)].get? (0 : Int).toNat = some l :=
  (tweetDataset_getitem_spec [('h' :: 'i' :: [])] [5] [(padTok, 0), (unkTok, 1)] 2 1
    rfl (by decide)).2.1 0 (by decide) (by decide)

/-- C9: every element of the padded encoded sequence returned by
`TweetDataset.__getitem__` with a vocabulary produced by `build_vocab` lies
in `[0, len(vocab))`, so the embedding lookup of `Binary_Classifier`
constructed with `vocab_size = len(vocab)` never receives an out-of-range
index. -/
theorem encoded_indices_in_vocab_range (vtexts : List (List Char)) (mf : Nat)
    (texts : List (List Char)) (labels : List Int) (max_len : Nat) (idx : Int)
    (s : List Nat) (l : Int)
    (h : TweetDataset.getitem ⟨texts, labels, build_vocab vtexts mf, max_len⟩ idx =
      some (s, l)) :
    ∀ i ∈ s, i < (build_vocab vtexts mf).length := by
  have hvlen1 : 1 < (build_vocab vtexts mf).length :=
    build_vocab_lookup_lt vtexts mf unkTok 1 (build_vocab_unk vtexts mf)
  intro i hi
  unfold TweetDataset.getitem at h
  cases ht : pyGet? (⟨texts, labels, build_vocab vtexts mf, max_len⟩ :
      TweetDataset).texts idx with
  | none => rw [ht] at h; cases h
  | some text =>
    rw [ht] at h
    cases hlb : pyGet? (⟨texts, labels, build_vocab vtexts mf, max_len⟩ :
        TweetDataset).labels idx with
    | none => rw [hlb] at h; cases h
    | some lab =>
      rw [hlb] at h
      simp only [encode, text_to_sequence_eq text (build_vocab vtexts mf) 1
        (build_vocab_unk vtexts mf), Option.map_some', Option.some.injEq,
        Prod.mk.injEq] at h
      obtain ⟨hs, -⟩ := h
      rw [← hs] at hi
      rcases pad_sequence_mem _ _ i hi with him | h0
      · obtain ⟨tk, -, htk⟩ := List.mem_map.mp him
        cases hlk : lookup? (build_vocab vtexts mf) tk with
        | none =>
          rw [hlk] at htk
          simp only [Option.getD_none] at htk
          omega
        | some j =>
          rw [hlk] at htk
          simp only [Option.getD_some] at htk
          rw [← htk]
          exact build_vocab_lookup_lt _ _ _ _ hlk
      · omega

/-- A concrete text "hi" used by the C9 witness. -/
def hiText : List Char := 'h' :: 'i' :: []

/-- Witness for C9: the concrete encoded sample `[2, 0]` of the dataset built
over the corpus ["hi"] stays below the vocabulary size. -/
theorem encoded_indices_in_vocab_range_witness :
    2 < (build_vocab [hiText] 1).length :=
  encoded_indices_in_vocab_range [hiText] 1 [hiText] [0] 2 0 [2, 0] 0 (by decide)
    2 (by decide)

section Training

variable {M B : Type}

/-- One full training pass over the batches of one epoch: the model state is
threaded through `step` (forward pass, loss, backward pass, optimizer
update) while the per-batch losses are summed, as in the inner training
`for` loop of `train_model`. -/
def epochTrainPass (step : M → B → M × ℚ) (tl : List B) (m : M) : M × ℚ :=
  tl.foldl (fun p b => ((step p.1 b).1, p.2 + (step p.1 b).2)) (m, (0 : ℚ))

/-- One validation pass over the batches: the model state is unchanged and
the per-batch losses are summed, as in the `torch.no_grad` loop. -/
def epochValPass (evalLoss : M → B → ℚ) (vl : List B) (m : M) : ℚ :=
  vl.foldl (fun acc b => acc + evalLoss m b) 0

/-- The model state after `k` training epochs. -/
def modelAfter (step : M → B → M × ℚ) (tl : List B) : M → Nat → M
  | m, 0 => m
  | m, k + 1 => modelAfter step tl (epochTrainPass step tl m).1 k

/-- The epoch loop of `train_model`, threading the model state and the two
loss histories; each epoch appends the mean of the training-batch losses and
the mean of the validation-batch losses.  Averaging divides by the number of
batches, which raises `ZeroDivisionError` on an empty loader: modelled by
`none`. -/
def train_model_aux (step : M → B → M × ℚ) (evalLoss : M → B → ℚ)
    (tl vl : List B) : Nat → M → List ℚ → List ℚ → Option (List ℚ × List ℚ)
  | 0, _, tls, vls => some (tls, vls)
  | e + 1, m, tls, vls =>
    if tl.length = 0 then none
    else if vl.length = 0 then none
    else
      train_model_aux step evalLoss tl vl e (epochTrainPass step tl m).1
        (tls ++ [(epochTrainPass step tl m).2 / (tl.length : ℚ)])
        (vls ++ [epochValPass evalLoss vl (epochTrainPass step tl m).1 / (vl.length : ℚ)])

/-- `train_model`: run exactly `epochs` rounds, each recording one averaged
training loss and one averaged validation loss; return the two histories. -/
def train_model (step : M → B → M × ℚ) (evalLoss : M → B → ℚ)
    (m : M) (tl vl : List B) (epochs : Nat) : Option (List ℚ × List ℚ) :=
  train_model_aux step evalLoss tl vl epochs m [] []

/-- Full characterization of the epoch loop on non-empty loaders: it appends
one mean training loss and one mean validation loss per epoch. -/
theorem train_model_aux_spec (step : M → B → M × ℚ) (evalLoss : M → B → ℚ)
    (tl vl : List B) (ht : tl ≠ []) (hv : vl ≠ []) :
    ∀ (e : Nat) (m : M) (tls vls : List ℚ),
      train_model_aux step evalLoss tl vl e m tls vls =
        some (tls ++ (List.range e).map
            (fun k => (epochTrainPass step tl (modelAfter step tl m k)).2 / (tl.length : ℚ)),
          vls ++ (List.range e).map
            (fun k => epochValPass evalLoss vl (modelAfter step tl m (k + 1)) /
              (vl.length : ℚ))) := by
  intro e
  induction e with
  | zero =>
    intro m tls vls
    simp [train_model_aux]
  | succ e ih =>
    intro m tls vls
    rw [train_model_aux,
      if_neg (show ¬tl.length = 0 from fun h0 => ht (List.length_eq_zero.mp h0)),
      if_neg (show ¬vl.length = 0 from fun h0 => hv (List.length_eq_zero.mp h0)),
      ih]
    conv_rhs => rw [List.range_succ_eq_map]
    simp only [List.map_cons, List.map_map, List.append_assoc, List.singleton_append]
    rfl

/-- C4: for every epoch count and non-empty batch sources, `train_model`
runs exactly `epochs` rounds, appends per round exactly one training and one
validation loss — each the arithmetic mean (sum divided by the batch count)
of that round's per-batch losses — and returns the two ordered per-epoch
histories, each of length `epochs`. -/
theorem train_model_epoch_losses (step : M → B → M × ℚ) (evalLoss : M → B → ℚ)
    (m : M) (tl vl : List B) (epochs : Nat) (ht : tl ≠ []) (hv : vl ≠ []) :
    ∃ tls vls, train_model step evalLoss m tl vl epochs = some (tls, vls) ∧
      tls.length = epochs ∧ vls.length = epochs ∧
      tls = (List.range epochs).map
        (fun k => (epochTrainPass step tl (modelAfter step tl m k)).2 / (tl.length : ℚ)) ∧
      vls = (List.range epochs).map
        (fun k => epochValPass evalLoss vl (modelAfter step tl m (k + 1)) /
          (vl.length : ℚ)) := by
  refine ⟨_, _, ?_, by simp, by simp, rfl, rfl⟩
  rw [train_model, train_model_aux_spec step evalLoss tl vl ht hv]
  simp

/-- Witness for C4 on a one-batch training source and one-batch validation
source, three epochs. -/
theorem train_model_epoch_losses_witness :
    ∃ tls vls,
      train_model (fun (_ : Unit) (_ : Unit) => ((), (1 : ℚ))) (fun _ _ => (2 : ℚ))
          () [()] [()] 3 = some (tls, vls) ∧ tls.length = 3 ∧ vls.length = 3 := by
  obtain ⟨tls, vls, h1, h2, h3, -, -⟩ :=
    train_model_epoch_losses (fun (_ : Unit) (_ : Unit) => ((), (1 : ℚ)))
      (fun _ _ => (2 : ℚ)) () [()] [()] 3 (by simp) (by simp)
  exact ⟨tls, vls, h1, h2, h3⟩

/-- C6: with at least one epoch, an empty training or validation batch
source makes the per-epoch mean undefined — the averaging step divides by
the zero batch count and `train_model` fails instead of propagating NaN or
garbage losses — while for non-empty sources no such failure occurs. -/
theorem train_model_empty_loader (step : M → B → M × ℚ) (evalLoss : M → B → ℚ)
    (m : M) (tl vl : List B) (epochs : Nat) (he : 1 ≤ epochs) :
    ((tl = [] ∨ vl = []) → train_model step evalLoss m tl vl epochs = none) ∧
    (tl ≠ [] → vl ≠ [] → (train_model step evalLoss m tl vl epochs).isSome) := by
  constructor
  · intro hor
    obtain ⟨e, rfl⟩ : ∃ e, epochs = e + 1 := ⟨epochs - 1, by omega⟩
    rw [train_model, train_model_aux]
    rcases hor with h | h
    · rw [if_pos (by simp [h])]
    · by_cases h2 : tl.length = 0
      · rw [if_pos h2]
      · rw [if_neg h2, if_pos (by simp [h])]
  · intro ht hv
    rw [train_model, train_model_aux_spec step evalLoss tl vl ht hv]
    rfl

/-- Witness for C6: an empty training source with one epoch fails. -/
theorem train_model_empty_loader_witness :
    train_model (fun (_ : Unit) (_ : Unit) => ((), (1 : ℚ))) (fun _ _ => (2 : ℚ))
        () [] [()] 1 = none :=
  (train_model_empty_loader (fun (_ : Unit) (_ : Unit) => ((), (1 : ℚ)))
    (fun _ _ => (2 : ℚ)) () [] [()] 1 (by omega)).1 (Or.inl rfl)

end Training

/-- `torch.argmax` over the two logits of one sample: the index of the
maximum, ties broken by the lowest index. -/
def argmax2 (p : ℚ × ℚ) : Nat := if p.1 < p.2 then 1 else 0

/-- The prediction loop body: one predicted label per sample of the batch,
as in `preds = torch.argmax(outputs, dim=1)`. -/
def predictBatch (modelF : List Nat → ℚ × ℚ) (batch : List (List Nat)) : List Nat :=
  batch.map fun x => argmax2 (modelF x)

/-- C5: for every batch of `B` samples processed by the inference loop,
exactly `B` predicted labels are produced, the `i`-th being the argmax of
the `i`-th sample's two logits with ties broken by the lowest index, so
every predicted label lies in the two legal classes 0 and 1. -/
theorem predictions_binary_argmax (modelF : List Nat → ℚ × ℚ) (batch : List (List Nat)) :
    (predictBatch modelF batch).length = batch.length ∧
    (∀ p ∈ predictBatch modelF batch, p = 0 ∨ p = 1) ∧
    (∀ i : Nat, (predictBatch modelF batch).get? i =
      (batch.get? i).map fun x => argmax2 (modelF x)) ∧
    (∀ x : List Nat, ((modelF x).1 < (modelF x).2 → argmax2 (modelF x) = 1) ∧
      ((modelF x).2 ≤ (modelF x).1 → argmax2 (modelF x) = 0)) := by
  refine ⟨by simp [predictBatch], ?_, ?_, ?_⟩
  · intro p hp
    obtain ⟨x, -, hx⟩ := List.mem_map.mp hp
    rw [← hx]
    unfold argmax2
    by_cases h : (modelF x).1 < (modelF x).2
    · exact Or.inr (by simp [h])
    · exact Or.inl (by simp [h])
  · intro i
    simp [predictBatch, List.get?_map]
  · intro x
    constructor
    · intro h
      simp [argmax2, h]
    · intro h
      simp [argmax2, not_lt.mpr h]

/-- Witness for C5 on a concrete two-sample batch. -/
theorem predictions_binary_argmax_witness :
    (predictBatch (fun x => ((x.headD 0 : ℚ), 1)) [[0], [7]]).length = 2 :=
  (predictions_binary_argmax (fun x => ((x.headD 0 : ℚ), 1)) [[0], [7]]).1

/-- The parameters of `Binary_Classifier`, as opaque pure layer functions:
the embedding table lookup, the bidirectional LSTM producing one hidden
vector (both directions concatenated) per time step, and the final linear
projection to the two class logits.  Only their compositional structure
matters for the properties proved here. -/
structure BCParams where
  embed : Nat → List ℚ
  lstm : List (List ℚ) → List (List ℚ)
  fc : List ℚ → ℚ × ℚ

/-- The two module modes of PyTorch: `model.train()` and `model.eval()`. -/
inductive Mode
  | train
  | eval

/-- Inverted dropout with `p = 0.6` under a given Boolean drop mask (the
realization of the dropout randomness stream): kept activations are scaled
by `1 / (1 - p)`. -/
def dropoutMask (mask : List Bool) (v : List ℚ) : List ℚ :=
  (v.zip mask).map fun q => if q.2 then 0 else q.1 / (1 - (3 / 5 : ℚ))

/-- The forward pass of `Binary_Classifier`: embedding lookup, LSTM, select
the last time step, dropout (active only in training mode), linear
projection to logits. -/
def Binary_Classifier_forward (params : BCParams) (mode : Mode) (mask : List Bool)
    (x : List Nat) : ℚ × ℚ :=
  let e := x.map params.embed
  let h := params.lstm e
  let last := h.getLast?.getD []
  let d := match mode with
    | Mode.train => dropoutMask mask last
    | Mode.eval => last
  params.fc d

/-- C8: with a fixed parameter snapshot and the model in evaluation mode,
the forward pass of `Binary_Classifier` is a deterministic function of the
input batch — two passes at any two states of the dropout randomness stream
produce identical logits — whereas training-mode output does depend on the
dropout stream. -/
theorem forward_eval_deterministic (params : BCParams) (x : List Nat) :
    (∀ mask1 mask2 : List Bool,
      Binary_Classifier_forward params Mode.eval mask1 x =
        Binary_Classifier_forward params Mode.eval mask2 x) ∧
    (∃ (q : BCParams) (y : List Nat) (m1 m2 : List Bool),
      Binary_Classifier_forward q Mode.train m1 y ≠
        Binary_Classifier_forward q Mode.train m2 y) := by
  constructor
  · intro mask1 mask2
    rfl
  · refine ⟨⟨fun _ => [1], fun e => e, fun v => (v.headD 0, 0)⟩, [0],
      [true], [false], ?_⟩
    norm_num [Binary_Classifier_forward, dropoutMask, Prod.ext_iff]

/-- Witness for C8 at a concrete parameter snapshot and input. -/
theorem forward_eval_deterministic_witness :
    Binary_Classifier_forward ⟨fun _ => [1], fun e => e, fun v => (v.headD 0, 0)⟩
        Mode.eval [true] [0] =
      Binary_Classifier_forward ⟨fun _ => [1], fun e => e, fun v => (v.headD 0, 0)⟩
        Mode.eval [false] [0] :=
  (forward_eval_deterministic ⟨fun _ => [1], fun e => e, fun v => (v.headD 0, 0)⟩
    [0]).1 [true] [false]

end Tweet
